import Mathlib

/-!
Verification of the x-LoRA quantized-llama forward core
(src/mistralrs-core/src/xlora_models/quantized_llama.rs).

The development is a shallow embedding of the Rust source.  Tensor
numerics that the repository treats as external backend primitives
(quantized matmul, softmax, the LoRA linear layers, the classifier
network) are represented by opaque function parameters; everything the
source file itself computes — mask construction and memoization, the
rotary pairing and its bounds checks, the KV-cache concatenation, the
mixture-of-experts routing/renormalization/scatter, and the dual-pass
cache orchestration of `ModelWeights::forward` — is translated
directly.  Scalar weights held as `f32`/`f64` in the source are
modelled as exact rationals so the routing and rotation arithmetic is
faithful to the formulas in the source.
-/

namespace XLoraQuantizedLlama

/-! ### Causal mask cache — `ModelWeights::mask`, lines 672–683

The source keeps `masks : HashMap<usize, Tensor>`; a mask for length
`t` is a `(t, t)` tensor of `u8::from(j > i)` entries.  We model the
tensor as a row-major list of rows of `Bool` (`u8` 1/0 is only ever
consumed as a boolean condition by `masked_fill`/`where_cond`) and the
hash map as an association list with first-match lookup. -/

/-- The mask tensor built at line 676–679: entry `(i, j)` is `j > i`. -/
def buildMask (t : Nat) : List (List Bool) :=
  (List.range t).map (fun i => (List.range t).map (fun j => decide (j > i)))

/-- Model of the `masks : HashMap<usize, Tensor>` field. -/
abbrev MaskTable := List (Nat × List (List Bool))

/-- `HashMap::get` on the model table. -/
def maskLookup (t : Nat) : MaskTable → Option (List (List Bool))
  | [] => none
  | (t', m) :: rest => if t' = t then some m else maskLookup t rest

/-- `ModelWeights::mask` (lines 672–683): return the memoized mask for
`t` if present, otherwise build it, insert it and return it.  The
returned tensor is a clone of the stored one (shared storage in the
source); the model returns the stored value itself. -/
def maskOp (t : Nat) (tbl : MaskTable) : List (List Bool) × MaskTable :=
  match maskLookup t tbl with
  | some m => (m, tbl)
  | none => (buildMask t, tbl ++ [(t, buildMask t)])

/-- A table is well formed when every stored mask is the canonical mask
for its key; every table reachable from the empty one is. -/
def MaskTableWF (tbl : MaskTable) : Prop :=
  ∀ p ∈ tbl, p.2 = buildMask p.1

theorem buildMask_entry (t i j : Nat) (hi : i < t) (hj : j < t) :
    ((buildMask t).getD i []).getD j false = decide (j > i) := by
  simp [buildMask, List.getD_eq_getElem?_getD, List.getElem?_map,
    List.getElem?_range, hi, hj]

theorem maskLookup_some_of_wf {tbl : MaskTable} (h : MaskTableWF tbl)
    {t : Nat} {m : List (List Bool)} (hm : maskLookup t tbl = some m) :
    m = buildMask t := by
  induction tbl with
  | nil => simp [maskLookup] at hm
  | cons p rest ih =>
    simp only [maskLookup] at hm
    by_cases hp : p.1 = t
    · simp only [hp, if_true] at hm
      have hpm := h p (List.mem_cons_self p rest)
      rw [← Option.some.inj hm, hpm, hp]
    · simp only [hp, if_false] at hm
      exact ih (fun q hq => h q (List.mem_cons_of_mem _ hq)) hm

theorem maskLookup_append_left {tbl : MaskTable} {t : Nat}
    {m : List (List Bool)} (h : maskLookup t tbl = some m) (rest : MaskTable) :
    maskLookup t (tbl ++ rest) = some m := by
  induction tbl with
  | nil => simp [maskLookup] at h
  | cons p tl ih =>
    simp only [maskLookup, List.cons_append] at h ⊢
    by_cases hp : p.1 = t
    · simpa [hp] using h
    · simp only [hp, if_false] at h ⊢
      exact ih h

theorem maskOp_preserves_wf {tbl : MaskTable} (h : MaskTableWF tbl) (t : Nat) :
    MaskTableWF (maskOp t tbl).2 := by
  unfold maskOp
  cases hl : maskLookup t tbl with
  | some m => exact h
  | none =>
    intro p hp
    rcases List.mem_append.1 hp with hp | hp
    · exact h p hp
    · simp only [List.mem_singleton] at hp
      rw [hp]

/-- C6: for every sequence length `t` the mask built by
`ModelWeights::mask` has entry `(i, j)` masked iff `j > i` (strict
upper triangle); the mask is built and inserted into the memo table on
the first request for `t`; repeated calls for the same `t` return the
stored mask unchanged (and leave the table untouched); and no entry is
ever evicted or overwritten by later calls.  On any well-formed table
(in particular any table reachable from the empty one) the returned
mask is the canonical strict-upper-triangle mask. -/
theorem C6_mask_memo_strict_upper_triangle :
    (∀ t i j : Nat, i < t → j < t →
        ((buildMask t).getD i []).getD j false = decide (j > i))
    ∧ (∀ t tbl, maskLookup t tbl = none →
        maskOp t tbl = (buildMask t, tbl ++ [(t, buildMask t)]))
    ∧ (∀ t tbl m, maskLookup t tbl = some m → maskOp t tbl = (m, tbl))
    ∧ (∀ t t' m' tbl, maskLookup t' tbl = some m' →
        maskLookup t' (maskOp t tbl).2 = some m')
    ∧ (∀ t tbl, MaskTableWF tbl →
        (maskOp t tbl).1 = buildMask t ∧ MaskTableWF (maskOp t tbl).2) := by
  refine ⟨buildMask_entry, ?_, ?_, ?_, ?_⟩
  · intro t tbl h
    unfold maskOp
    rw [h]
  · intro t tbl m h
    unfold maskOp
    rw [h]
  · intro t t' m' tbl h
    unfold maskOp
    cases hl : maskLookup t tbl with
    | some m => exact h
    | none => exact maskLookup_append_left h _
  · intro t tbl hwf
    constructor
    · unfold maskOp
      cases hl : maskLookup t tbl with
      | some m => exact maskLookup_some_of_wf hwf hl
      | none => rfl
    · exact maskOp_preserves_wf hwf t

/-- Witness for C6 at concrete inputs: a first request for length 2 on
the empty table builds and inserts the mask, a repeated request returns
the stored entry, and entry (0, 1) of the built mask is masked. -/
theorem C6_mask_memo_strict_upper_triangle_witness :
    maskOp 2 [] = (buildMask 2, [(2, buildMask 2)])
    ∧ maskOp 2 [(2, buildMask 2)] = (buildMask 2, [(2, buildMask 2)])
    ∧ maskLookup 2 (maskOp 3 [(2, buildMask 2)]).2 = some (buildMask 2)
    ∧ ((buildMask 2).getD 0 []).getD 1 false = true :=
  ⟨C6_mask_memo_strict_upper_triangle.2.1 2 [] (by decide),
   C6_mask_memo_strict_upper_triangle.2.2.1 2 [(2, buildMask 2)]
     (buildMask 2) (by decide),
   C6_mask_memo_strict_upper_triangle.2.2.2.1 3 2 (buildMask 2)
     [(2, buildMask 2)] (by decide),
   (C6_mask_memo_strict_upper_triangle.1 2 0 1 (by decide)
     (by decide)).trans (by decide)⟩

/-! ### KV-cache update in the attention block —
`LayerWeights::forward_attn`, lines 241–249

The cache slot is `&mut Option<(Tensor, Tensor)>`.  A cached key (or
value) tensor of shape `(batch, kv_heads, cached_len, head_dim)` is
modelled by its list of per-position slices along the sequence axis
(axis 2, the concatenation axis); the slice type `κ` is abstract.
`Tensor::cat(&[cache, new], 2)` is list append.  The slot write
`*kv_cache = Some((k, v))` at line 249 is the only assignment to the
slot in `forward_attn` and is executed on every call. -/

/-- Lines 241–249 of `forward_attn`: combine the cached pair (if any)
with the freshly projected keys/values, and the value stored back into
the slot.  The function returns the new slot contents; the source has
no other mutation of the cache slot. -/
def forward_attn_kv_update {κ : Type} (kNew vNew : List κ)
    (slot : Option (List κ × List κ)) : Option (List κ × List κ) :=
  match slot with
  | none => some (kNew, vNew)
  | some (kCache, vCache) => some (kCache ++ kNew, vCache ++ vNew)

/-- `n` sequential single-token attention calls on one slot, starting
from the empty slot of a fresh session; step `i` contributes the
single key/value slice `kSlice i` / `vSlice i`. -/
def kvSteps {κ : Type} (kSlice vSlice : Nat → κ) : Nat → Option (List κ × List κ)
  | 0 => none
  | n + 1 =>
      forward_attn_kv_update [kSlice n] [vSlice n] (kvSteps kSlice vSlice n)

theorem kvSteps_succ_eq {κ : Type} (kSlice vSlice : Nat → κ) :
    ∀ n : Nat, kvSteps kSlice vSlice (n + 1) =
      some ((List.range (n + 1)).map kSlice, (List.range (n + 1)).map vSlice) := by
  intro n
  induction n with
  | zero => simp [kvSteps, forward_attn_kv_update, List.range_succ]
  | succ m ih =>
    show forward_attn_kv_update _ _ (kvSteps kSlice vSlice (m + 1)) = _
    rw [ih]
    simp [forward_attn_kv_update, List.range_succ]

/-- C3: on every call of the attention block, if the cache slot holds a
previous (K, V) pair the new keys/values are appended after the cached
ones along the sequence axis and the concatenated pair is stored back;
an empty slot receives exactly the new keys/values; the slot always
holds a pair after the call (the store is unconditional, and
`forward_attn_kv_update` is the slot's entire mutation); consequently
after `n + 1` sequential single-token steps the cached key and value
sequences have length `n + 1` and consist of the per-step slices in
step order. -/
theorem C3_kv_cache_concat_growth {κ : Type} :
    (∀ (kNew vNew kCache vCache : List κ),
        forward_attn_kv_update kNew vNew (some (kCache, vCache)) =
          some (kCache ++ kNew, vCache ++ vNew))
    ∧ (∀ kNew vNew : List κ,
        forward_attn_kv_update kNew vNew none = some (kNew, vNew))
    ∧ (∀ (kNew vNew : List κ) (slot : Option (List κ × List κ)),
        (forward_attn_kv_update kNew vNew slot).isSome)
    ∧ (∀ (kSlice vSlice : Nat → κ) (n : Nat),
        kvSteps kSlice vSlice (n + 1) =
          some ((List.range (n + 1)).map kSlice, (List.range (n + 1)).map vSlice)
        ∧ ((List.range (n + 1)).map kSlice).length = n + 1
        ∧ ((List.range (n + 1)).map vSlice).length = n + 1) := by
  refine ⟨fun _ _ _ _ => rfl, fun _ _ => rfl, ?_, ?_⟩
  · intro kNew vNew slot
    cases slot with
    | none => rfl
    | some p => cases p; rfl
  · intro kSlice vSlice n
    exact ⟨kvSteps_succ_eq kSlice vSlice n, by simp, by simp⟩

/-! ### Rotary position encoder —
`LayerWeights::apply_rotary_emb` (lines 173–205) and
`precomput_freqs_cis` (lines 295–312)

The input `x` has shape `(b_sz, n_head, seq_len, n_embd)` and is
modelled as nested lists in that nesting order.  The reshape at line
177 views the head dimension as `n_embd/2` adjacent-element pairs; the
narrow at lines 181/185 takes rows `offset .. offset+seq_len` of the
`(MAX_SEQ_LEN, head_dim/2)` cos/sin tables and fails when
`offset + seq_len` exceeds the table length.  The tables are
`cos(t·θ_p)`/`sin(t·θ_p)` with `θ_p = freq_base^(-2p/head_dim)`; the
transcendental `cos`/`sin`/`powf` evaluations are backend numeric
primitives, modelled by opaque parameters `cosF`/`sinF`/`freqExp`
applied to the exactly-computed angle `t * θ_p`. -/

def MAX_SEQ_LEN : Nat := 4096

/-- Entry `(t, p)` of `idx_theta` in `precomput_freqs_cis`: the matmul
of `arange(0, MAX_SEQ_LEN)` against the frequency row gives angle
`t * θ_p`, where `freqExp p` stands for `1/freq_base^(2p/head_dim)`. -/
def freqAngle (freqExp : Nat → ℚ) (t p : Nat) : ℚ := (t : ℚ) * freqExp p

/-- The cos table of `precomput_freqs_cis`: `cos` applied entrywise to
`idx_theta`. -/
def tableCos (cosF : ℚ → ℚ) (freqExp : Nat → ℚ) (t p : Nat) : ℚ :=
  cosF (freqAngle freqExp t p)

/-- The sin table of `precomput_freqs_cis`: `sin` applied entrywise to
`idx_theta`. -/
def tableSin (sinF : ℚ → ℚ) (freqExp : Nat → ℚ) (t p : Nat) : ℚ :=
  sinF (freqAngle freqExp t p)

/-- The rotation of one head-dimension row (lines 195–201): the row is
split into adjacent-element pairs `(x0, x1)` (pair index `p`), each
pair becomes `(x0·cos p − x1·sin p, x0·sin p + x1·cos p)`, and the
pairs are reassembled in place (`cat` on the pair axis followed by
`flatten_from`). -/
def rotatePairs (c s : Nat → ℚ) : Nat → List ℚ → List ℚ
  | _, [] => []
  | _, [x] => [x]
  | p, x0 :: x1 :: rest =>
      (x0 * c p - x1 * s p) :: (x0 * s p + x1 * c p) :: rotatePairs c s (p + 1) rest

/-- Rotation of one head row at absolute position `t` (the narrow at
offset plus the relative sequence index selects table row `t`). -/
def applyRotaryVec (cosT sinT : Nat → Nat → ℚ) (t : Nat) (v : List ℚ) : List ℚ :=
  rotatePairs (cosT t) (sinT t) 0 v

/-- The per-batch loop of `apply_rotary_emb` pushing one rope per batch
element, aborting on the first error (`?`). -/
def collectRopes {α β : Type} (f : α → Option β) : List α → Option (List β)
  | [] => some []
  | a :: rest =>
    match f a with
    | none => none
    | some b =>
      match collectRopes f rest with
      | none => none
      | some bs => some (b :: bs)

/-- Sequence length read from the input tensor's shape (`dims4`). -/
def seqLenOf (x : List (List (List (List ℚ)))) : Nat :=
  ((x.getD 0 []).getD 0 []).length

/-- Head dimension (`n_embd`) read from the input tensor's shape. -/
def headDimOf (x : List (List (List (List ℚ)))) : Nat :=
  (((x.getD 0 []).getD 0 []).getD 0 []).length

/-- One iteration of the per-batch loop (lines 178–203): the narrow of
the cos/sin tables at `offset` with length `seq_len` fails when it
reaches past `MAX_SEQ_LEN`; otherwise every head row of batch element
`be.1` at relative position `sr` is rotated with table row
`offset + sr`. -/
def ropeElem (cosT sinT : Nat → Nat → ℚ) (x : List (List (List (List ℚ))))
    (be : Nat × Nat) : Option (List (List (List ℚ))) :=
  if be.2 + seqLenOf x ≤ MAX_SEQ_LEN then
    some ((x.getD be.1 []).map (fun head =>
      head.enum.map (fun sr => applyRotaryVec cosT sinT (be.2 + sr.1) sr.2)))
  else none

/-- `LayerWeights::apply_rotary_emb` (lines 173–205).  The reshape into
adjacent pairs fails for odd `n_embd`; for each batch element `b` the
narrow of the cos/sin tables fails when
`offsets[b] + seq_len > MAX_SEQ_LEN`; otherwise every head row at
relative position `sr` is rotated with table row `offsets[b] + sr`, and
the per-batch results are concatenated (which fails on an empty batch).
-/
def apply_rotary_emb (cosT sinT : Nat → Nat → ℚ)
    (x : List (List (List (List ℚ)))) (offsets : List Nat) :
    Option (List (List (List (List ℚ)))) :=
  if headDimOf x % 2 ≠ 0 then none
  else
    match collectRopes (ropeElem cosT sinT x) ((List.range x.length).zip offsets) with
    | none => none
    | some ropes => if ropes.isEmpty then none else some ropes

theorem rotatePairs_length (c s : Nat → ℚ) :
    ∀ (v : List ℚ) (p : Nat), (rotatePairs c s p v).length = v.length
  | [], _ => rfl
  | [_], _ => rfl
  | x0 :: x1 :: rest, p => by
      simp only [rotatePairs, List.length_cons]
      rw [rotatePairs_length c s rest (p + 1)]

theorem rotatePairs_getD (c s : Nat → ℚ) :
    ∀ (j : Nat) (v : List ℚ) (p : Nat), 2 * (j + 1) ≤ v.length →
      (rotatePairs c s p v).getD (2 * j) 0 =
          v.getD (2 * j) 0 * c (p + j) - v.getD (2 * j + 1) 0 * s (p + j)
      ∧ (rotatePairs c s p v).getD (2 * j + 1) 0 =
          v.getD (2 * j) 0 * s (p + j) + v.getD (2 * j + 1) 0 * c (p + j)
  | 0, [], _, h => by simp at h
  | 0, [_], _, h => by simp at h
  | 0, _ :: _ :: _, p, _ => by simp [rotatePairs]
  | j + 1, [], _, h => by simp at h
  | j + 1, [_], _, h => by simp at h; omega
  | j + 1, x0 :: x1 :: rest, p, h => by
      have h' : 2 * (j + 1) ≤ rest.length := by
        simp only [List.length_cons] at h; omega
      have ih := rotatePairs_getD c s j rest (p + 1) h'
      have e0 : 2 * (j + 1) = 2 * j + 1 + 1 := by omega
      have e1 : 2 * (j + 1) + 1 = 2 * j + 1 + 1 + 1 := by omega
      have ep : p + 1 + j = p + (j + 1) := by omega
      simp only [rotatePairs, e0, e1, List.getD_cons_succ]
      rw [← ep]
      exact ih

theorem rotatePairs_id (c s : Nat → ℚ) (hc : ∀ q, c q = 1) (hs : ∀ q, s q = 0) :
    ∀ (v : List ℚ) (p : Nat), rotatePairs c s p v = v
  | [], _ => rfl
  | [_], _ => rfl
  | x0 :: x1 :: rest, p => by
      simp [rotatePairs, hc, hs, rotatePairs_id c s hc hs rest (p + 1)]

theorem collectRopes_eq_none_iff {α β : Type} (f : α → Option β) :
    ∀ l : List α, collectRopes f l = none ↔ ∃ a ∈ l, f a = none
  | [] => by simp [collectRopes]
  | a :: rest => by
      have ih := collectRopes_eq_none_iff f rest
      cases hfa : f a with
      | none =>
        simp only [collectRopes, hfa]
        exact ⟨fun _ => ⟨a, List.mem_cons_self a rest, hfa⟩, fun _ => trivial⟩
      | some b =>
        cases hr : collectRopes f rest with
        | none =>
          obtain ⟨x, hx, hfx⟩ := ih.1 hr
          simp only [collectRopes, hfa, hr]
          exact ⟨fun _ => ⟨x, List.mem_cons_of_mem a hx, hfx⟩, fun _ => trivial⟩
        | some bs =>
          simp only [collectRopes, hfa, hr]
          constructor
          · intro h; cases h
          · rintro ⟨x, hx, hfx⟩
            rcases List.mem_cons.1 hx with rfl | hx'
            · rw [hfa] at hfx; cases hfx
            · have hco := ih.2 ⟨x, hx', hfx⟩
              rw [hco] at hr; cases hr

theorem collectRopes_length {α β : Type} (f : α → Option β) :
    ∀ (l : List α) (bs : List β), collectRopes f l = some bs → bs.length = l.length
  | [], bs, h => by
      simp only [collectRopes, Option.some.injEq] at h
      rw [← h]; rfl
  | a :: rest, bs, h => by
      cases hfa : f a with
      | none =>
          simp only [collectRopes, hfa] at h
          exact Option.noConfusion h
      | some b =>
        cases hr : collectRopes f rest with
        | none =>
            simp only [collectRopes, hfa, hr] at h
            exact Option.noConfusion h
        | some tl =>
          simp only [collectRopes, hfa, hr, Option.some.injEq] at h
          rw [← h]
          simp only [List.length_cons]
          rw [collectRopes_length f rest tl hr]

/-- C7: the rotary encoder splits the head dimension into
`head_dim/2` adjacent-element pairs (positions `2p` and `2p + 1`, the
interleaved convention after the reshape, not block halves); pair `p`
at absolute position `t` becomes
`(x0·cos[t][p] − x1·sin[t][p], x0·sin[t][p] + x1·cos[t][p])`, the pairs
are reassembled into the original head-dim layout (length preserved);
and since row 0 of the precomputed tables holds angles `0·θ_p = 0`,
position 0 (where cos is 1 and sin is 0) returns the input row
unchanged. -/
theorem C7_rotary_adjacent_pairs :
    (∀ (cosT sinT : Nat → Nat → ℚ) (t : Nat) (v : List ℚ) (j : Nat),
        2 * (j + 1) ≤ v.length →
        (applyRotaryVec cosT sinT t v).getD (2 * j) 0 =
            v.getD (2 * j) 0 * cosT t j - v.getD (2 * j + 1) 0 * sinT t j
        ∧ (applyRotaryVec cosT sinT t v).getD (2 * j + 1) 0 =
            v.getD (2 * j) 0 * sinT t j + v.getD (2 * j + 1) 0 * cosT t j)
    ∧ (∀ (cosT sinT : Nat → Nat → ℚ) (t : Nat) (v : List ℚ),
        (applyRotaryVec cosT sinT t v).length = v.length)
    ∧ (∀ (cosF sinF : ℚ → ℚ) (freqExp : Nat → ℚ) (v : List ℚ),
        cosF 0 = 1 → sinF 0 = 0 →
        applyRotaryVec (tableCos cosF freqExp) (tableSin sinF freqExp) 0 v = v) := by
  refine ⟨?_, ?_, ?_⟩
  · intro cosT sinT t v j hj
    have := rotatePairs_getD (cosT t) (sinT t) j v 0 hj
    simpa [applyRotaryVec] using this
  · intro cosT sinT t v
    exact rotatePairs_length (cosT t) (sinT t) v 0
  · intro cosF sinF freqExp v hc hs
    unfold applyRotaryVec
    apply rotatePairs_id
    · intro q; simp [tableCos, freqAngle, hc]
    · intro q; simp [tableSin, freqAngle, hs]

/-- Witness for C7: a concrete rotation with constant tables cos = 2,
sin = 3 sends the pair (5, 7) to first coordinate 5·2 − 7·3 = −11, and
with exact tables the rotation at position 0 is the identity. -/
theorem C7_rotary_adjacent_pairs_witness :
    (applyRotaryVec (fun _ _ => 2) (fun _ _ => 3) 1 [5, 7]).getD 0 0 = -11
    ∧ applyRotaryVec (tableCos (fun _ => 1) (fun _ => 0))
        (tableSin (fun _ => 0) (fun _ => 0)) 0 [3, 5, 9] = [3, 5, 9] :=
  ⟨((C7_rotary_adjacent_pairs.1 (fun _ _ => 2) (fun _ _ => 3) 1 [5, 7] 0
      (by norm_num)).1).trans (by norm_num),
   C7_rotary_adjacent_pairs.2.2 (fun _ => 1) (fun _ => 0) (fun _ => 0)
     [3, 5, 9] rfl rfl⟩

/-- C8: for a well-shaped input (offsets matching the batch size, a
nonempty batch and an even head dimension), `apply_rotary_emb` fails
exactly when some batch element's position offset plus the sequence
length exceeds the precomputed table length `MAX_SEQ_LEN` (4096), and
produces a rotated tensor otherwise. -/
theorem C8_rotary_table_bound (cosT sinT : Nat → Nat → ℚ)
    (x : List (List (List (List ℚ)))) (offsets : List Nat)
    (hlen : offsets.length = x.length) (hb : 0 < x.length)
    (heven : headDimOf x % 2 = 0) :
    (apply_rotary_emb cosT sinT x offsets = none ↔
        ∃ i, i < offsets.length ∧ MAX_SEQ_LEN < offsets.getD i 0 + seqLenOf x)
    ∧ ((∀ i, i < offsets.length → offsets.getD i 0 + seqLenOf x ≤ MAX_SEQ_LEN) →
        (apply_rotary_emb cosT sinT x offsets).isSome) := by
  have hzip : (List.range x.length).zip offsets = offsets.enum := by
    rw [← hlen, ← List.enum_eq_zip_range]
  have hmem_iff : ∀ be : Nat × Nat, be ∈ (List.range x.length).zip offsets ↔
      be.1 < offsets.length ∧ offsets.getD be.1 0 = be.2 := by
    intro be
    rw [hzip, List.mem_enum_iff_getElem?]
    constructor
    · intro h
      have hb1 : be.1 < offsets.length := by
        by_contra hcon
        rw [List.getElem?_eq_none (le_of_not_lt hcon)] at h
        cases h
      refine ⟨hb1, ?_⟩
      rw [List.getD_eq_getElem?_getD, h]
      rfl
    · rintro ⟨hb1, hval⟩
      rw [List.getElem?_eq_getElem hb1]
      rw [List.getD_eq_getElem offsets 0 hb1] at hval
      rw [hval]
  have hfail_iff : ∀ be : Nat × Nat, ropeElem cosT sinT x be = none ↔
      MAX_SEQ_LEN < be.2 + seqLenOf x := by
    intro be
    unfold ropeElem
    by_cases hle : be.2 + seqLenOf x ≤ MAX_SEQ_LEN
    · simp [hle, Nat.not_lt.2 hle]
    · simp [hle, Nat.lt_of_not_le hle]
  have hnone_iff :
      collectRopes (ropeElem cosT sinT x) ((List.range x.length).zip offsets) = none ↔
      ∃ i, i < offsets.length ∧ MAX_SEQ_LEN < offsets.getD i 0 + seqLenOf x := by
    rw [collectRopes_eq_none_iff]
    constructor
    · rintro ⟨be, hmem, hfa⟩
      obtain ⟨hb1, hval⟩ := (hmem_iff be).1 hmem
      exact ⟨be.1, hb1, by rw [hval]; exact (hfail_iff be).1 hfa⟩
    · rintro ⟨i, hi, hgt⟩
      refine ⟨(i, offsets.getD i 0), (hmem_iff _).2 ⟨hi, rfl⟩, (hfail_iff _).2 hgt⟩
  constructor
  · unfold apply_rotary_emb
    rw [if_neg (by simp [heven])]
    cases hc : collectRopes (ropeElem cosT sinT x) ((List.range x.length).zip offsets) with
    | none =>
      simp only [true_iff]
      exact hnone_iff.1 hc
    | some ropes =>
      have hrl : ropes.length = ((List.range x.length).zip offsets).length :=
        collectRopes_length _ _ _ hc
      have hrnnil : ropes ≠ [] := by
        rw [← List.length_pos]
        rw [hrl]
        simp only [List.length_zip, List.length_range]
        omega
      have hempty : ropes.isEmpty = false := by simpa using hrnnil
      simp only [hempty, Bool.false_eq_true, if_false, reduceCtorEq, false_iff,
        not_exists, not_and]
      intro i hi hgt
      have hco := hnone_iff.2 ⟨i, hi, hgt⟩
      rw [hco] at hc
      cases hc
  · intro hall
    unfold apply_rotary_emb
    rw [if_neg (by simp [heven])]
    cases hc : collectRopes (ropeElem cosT sinT x) ((List.range x.length).zip offsets) with
    | none =>
      obtain ⟨i, hi, hgt⟩ := hnone_iff.1 hc
      exact absurd (hall i hi) (Nat.not_le.2 hgt)
    | some ropes =>
      have hrl : ropes.length = ((List.range x.length).zip offsets).length :=
        collectRopes_length _ _ _ hc
      have hrnnil : ropes ≠ [] := by
        rw [← List.length_pos]
        rw [hrl]
        simp only [List.length_zip, List.length_range]
        omega
      have hempty : ropes.isEmpty = false := by simpa using hrnnil
      simp only [hempty, Bool.false_eq_true, if_false, Option.isSome_some]

/-- Witness for C8: with a (1, 1, 1, 2)-shaped input, offset 4096 makes
the narrow reach past the 4096-row table and the call fails; offset 0
succeeds. -/
theorem C8_rotary_table_bound_witness :
    apply_rotary_emb (fun _ _ => 1) (fun _ _ => 0) [[[[1, 2]]]] [4096] = none
    ∧ (apply_rotary_emb (fun _ _ => 1) (fun _ _ => 0) [[[[1, 2]]]] [0]).isSome :=
  ⟨(C8_rotary_table_bound (fun _ _ => 1) (fun _ _ => 0) [[[[1, 2]]]] [4096]
      rfl (by decide) (by decide)).1.2 ⟨0, by decide, by decide⟩,
   (C8_rotary_table_bound (fun _ _ => 1) (fun _ _ => 0) [[[[1, 2]]]] [0]
      rfl (by decide) (by decide)).2
     (fun i hi => by
        simp only [List.length_singleton] at hi
        have hi0 : i = 0 := Nat.lt_one_iff.mp hi
        subst hi0
        decide)⟩

/-! ### Mixture-of-experts routing — `MlpOrMoe::forward`, lines 73–143

Routing weights (the softmax output, extracted to host memory as
`Vec<Vec<f32>>` at line 87) are modelled as lists of rationals; the
gate matmul and softmax themselves are backend primitives outside the
routing algorithm, so the algorithm is verified as a function of the
routing-weight matrix.  A token's hidden row is modelled as a function
`Nat → ℚ` (index → entry), and an expert (`Mlp::forward`, a
composition of row-wise linear/elementwise backend kernels) as an
opaque row function.  `Vec::sort_by` is a stable sort; it is modelled
by insertion sort, which is also stable, and stable sorting is unique,
so the two agree. -/

/-- `rw[i]` on an extracted routing-weight row. -/
def rwGet (rw : List ℚ) (i : Nat) : ℚ := rw.getD i 0

/-- Line 94–95: `dst = (0..rw.len()).collect()` then
`dst.sort_by(|i, j| rw[j].total_cmp(&rw[i]))` — a stable sort of the
expert indices by descending routing weight. -/
def sortedIndices (rw : List ℚ) : List Nat :=
  List.insertionSort (fun i j => rwGet rw j ≤ rwGet rw i) (List.range rw.length)

/-- `dst.iter().take(n_expert_used)`: the selected experts of a row. -/
def selExperts (k : Nat) (rw : List ℚ) : List Nat := (sortedIndices rw).take k

/-- `sum_routing_weights` accumulated in the first selection loop
(lines 96–102). -/
def selSum (k : Nat) (rw : List ℚ) : ℚ := ((selExperts k rw).map (rwGet rw)).sum

/-- `routing_weight / sum_routing_weights` pushed in the second loop
(lines 103–107). -/
def normWeight (k : Nat) (rw : List ℚ) (e : Nat) : ℚ := rwGet rw e / selSum k rw

/-- The per-expert accumulation lists `top_x` / `selected_rws`
(lines 91–92). -/
structure Assign where
  topX : List (List Nat)
  selRws : List (List ℚ)

/-- One selection loop over the selected experts of a row, pushing
`rowVal e` onto expert `e`'s list. -/
def pushAll {β : Type} (rowVal : Nat → β) (sel : List Nat)
    (ls : List (List β)) : List (List β) :=
  sel.foldl (fun acc e => acc.set e ((acc.getD e []) ++ [rowVal e])) ls

/-- Processing one row of routing weights (lines 93–108): the first
loop pushes the row index onto `top_x` of each selected expert, the
second pushes the renormalized weight onto `selected_rws`. -/
def pushRow (k rowIdx : Nat) (rw : List ℚ) (a : Assign) : Assign :=
  ⟨pushAll (fun _ => rowIdx) (selExperts k rw) a.topX,
   pushAll (fun e => normWeight k rw e) (selExperts k rw) a.selRws⟩

/-- The whole row loop of lines 93–108, starting from
`vec![vec![]; experts.len()]`. -/
def moeAssign (nExperts k : Nat) (rws : List (List ℚ)) : Assign :=
  (rws.enum).foldl (fun a p => pushRow k p.1 p.2 a)
    ⟨List.replicate nExperts [], List.replicate nExperts []⟩

/-- A token hidden row. -/
abbrev Vec := Nat → ℚ

/-- Row addition (`index_add` accumulates). -/
def vAdd (a b : Vec) : Vec := fun i => a i + b i

/-- Row scaling (`broadcast_mul` with the `((), 1)`-shaped weight). -/
def vSmul (c : ℚ) (a : Vec) : Vec := fun i => c * a i

/-- The zero row (`zeros_like`). -/
def vZero : Vec := fun _ => 0

theorem vAdd_eq_add (a b : Vec) : vAdd a b = a + b := rfl

theorem vZero_eq_zero : vZero = 0 := rfl

/-- `ys.index_add(&top_x, &rows, 0)`: add row `vals[p]` into `ys` at
index `rows[p]`, for each position `p`. -/
def indexAdd : List Vec → List Nat → List Vec → List Vec
  | ys, r :: rs, v :: vs => indexAdd (ys.set r (vAdd (ys.getD r vZero) v)) rs vs
  | ys, _, _ => ys

/-- The body of the expert loop (lines 114–136) for one
`(expert_idx, expert_layer)` pair: skip experts with no assigned
tokens, otherwise gather the assigned rows, run the expert, scale each
output row by the matching renormalized weight, and scatter-add into
the accumulator. -/
def moeExpertStep (xs : List Vec) (a : Assign) (ys : List Vec)
    (p : Nat × (Vec → Vec)) : List Vec :=
  let tx := a.topX.getD p.1 []
  if tx.isEmpty then ys
  else
    let current := tx.map (fun r => xs.getD r vZero)
    let outs := current.map p.2
    let scaled := List.zipWith vSmul (a.selRws.getD p.1 []) outs
    indexAdd ys tx scaled

/-- The MoE arm of `MlpOrMoe::forward` (lines 75–139) as a function of
the extracted routing weights `rws` and the flattened token rows `xs`:
build the per-expert assignment, then fold the expert loop over
`experts.iter().enumerate()` starting from the zero accumulator. -/
def moeForward (experts : List (Vec → Vec)) (k : Nat) (rws : List (List ℚ))
    (xs : List Vec) : List Vec :=
  (experts.enum).foldl (moeExpertStep xs (moeAssign experts.length k rws))
    (xs.map (fun _ => vZero))

/-- The strict total order realized by the stable descending sort:
higher routing weight first, ties by ascending expert index. -/
def descOrder (rw : List ℚ) (i j : Nat) : Prop :=
  rwGet rw j < rwGet rw i ∨ (rwGet rw i = rwGet rw j ∧ i < j)

theorem orderedInsert_pairwise {α : Type} (r : α → α → Prop) [DecidableRel r]
    (Q : α → α → Prop) (x : α) :
    ∀ l : List α, List.Pairwise Q l → (∀ y ∈ l, Q x y) →
      (∀ y ∈ l, ¬ r x y → Q y x) →
      List.Pairwise Q (List.orderedInsert r x l)
  | [], _, _, _ => by simp
  | y :: t, hQ, hbefore, hafter => by
      have hQy := List.pairwise_cons.1 hQ
      by_cases hr : r x y
      · rw [List.orderedInsert, if_pos hr]
        exact List.Pairwise.cons hbefore hQ
      · rw [List.orderedInsert, if_neg hr]
        refine List.Pairwise.cons ?_ ?_
        · intro z hz
          rcases (List.mem_orderedInsert r).1 hz with rfl | hz'
          · exact hafter y (List.mem_cons_self y t) hr
          · exact hQy.1 z hz'
        · exact orderedInsert_pairwise r Q x t hQy.2
            (fun z hz => hbefore z (List.mem_cons_of_mem y hz))
            (fun z hz hrz => hafter z (List.mem_cons_of_mem y hz) hrz)

/-- Stability of the model sort: on an input whose elements are
strictly increasing (the index range), equal-weight elements stay in
ascending index order, exactly like Rust's stable `sort_by`. -/
theorem insertionSort_stable_lt (rw : List ℚ) :
    ∀ l : List Nat, List.Pairwise (· < ·) l →
      List.Pairwise (fun a b => rwGet rw a = rwGet rw b → a < b)
        (List.insertionSort (fun i j => rwGet rw j ≤ rwGet rw i) l)
  | [], _ => by simp
  | x :: t, hP => by
      have hPt := List.pairwise_cons.1 hP
      rw [List.insertionSort]
      refine orderedInsert_pairwise _ _ x _
        (insertionSort_stable_lt rw t hPt.2) ?_ ?_
      · intro y hy
        have hyt : y ∈ t := (List.perm_insertionSort _ t).mem_iff.1 hy
        exact fun _ => hPt.1 y hyt
      · intro y _ hnr heq
        exact absurd (le_of_eq heq) hnr

theorem sortedIndices_perm (rw : List ℚ) :
    List.Perm (sortedIndices rw) (List.range rw.length) :=
  List.perm_insertionSort _ _

theorem sortedIndices_nodup (rw : List ℚ) : (sortedIndices rw).Nodup :=
  (sortedIndices_perm rw).symm.nodup (List.nodup_range rw.length)

theorem sortedIndices_sorted_le (rw : List ℚ) :
    List.Pairwise (fun i j => rwGet rw j ≤ rwGet rw i) (sortedIndices rw) := by
  haveI : IsTotal Nat (fun i j => rwGet rw j ≤ rwGet rw i) :=
    ⟨fun a b => (le_total (rwGet rw b) (rwGet rw a)).imp id id⟩
  haveI : IsTrans Nat (fun i j => rwGet rw j ≤ rwGet rw i) :=
    ⟨fun _ _ _ hab hbc => le_trans hbc hab⟩
  exact List.sorted_insertionSort _ _

theorem sortedIndices_pairwise_desc (rw : List ℚ) :
    List.Pairwise (descOrder rw) (sortedIndices rw) := by
  have h12 := (sortedIndices_sorted_le rw).and
    (insertionSort_stable_lt rw (List.range rw.length)
      (List.pairwise_lt_range rw.length))
  refine h12.imp ?_
  rintro a b ⟨hle, hst⟩
  rcases lt_or_eq_of_le hle with hlt | heq
  · exact Or.inl hlt
  · exact Or.inr ⟨heq.symm, hst heq.symm⟩

theorem selExperts_pairwise_desc (k : Nat) (rw : List ℚ) :
    List.Pairwise (descOrder rw) (selExperts k rw) :=
  (sortedIndices_pairwise_desc rw).sublist (List.take_sublist k _)

theorem selExperts_nodup (k : Nat) (rw : List ℚ) : (selExperts k rw).Nodup :=
  (sortedIndices_nodup rw).sublist (List.take_sublist k _)

theorem selExperts_mem_lt (k : Nat) (rw : List ℚ) {e : Nat}
    (h : e ∈ selExperts k rw) : e < rw.length := by
  have h1 : e ∈ sortedIndices rw := (List.take_sublist k _).mem h
  have h2 : e ∈ List.range rw.length := (sortedIndices_perm rw).mem_iff.1 h1
  exact List.mem_range.1 h2

theorem selExperts_beats_unselected (k : Nat) (rw : List ℚ) :
    ∀ i ∈ selExperts k rw, ∀ j, j < rw.length → j ∉ selExperts k rw →
      descOrder rw i j := by
  intro i hi j hj hjn
  have hsplit : sortedIndices rw =
      (sortedIndices rw).take k ++ (sortedIndices rw).drop k :=
    (List.take_append_drop k _).symm
  have hpw : List.Pairwise (descOrder rw)
      ((sortedIndices rw).take k ++ (sortedIndices rw).drop k) := by
    rw [← hsplit]; exact sortedIndices_pairwise_desc rw
  have hcross := (List.pairwise_append.1 hpw).2.2
  have hjmem : j ∈ sortedIndices rw :=
    (sortedIndices_perm rw).mem_iff.2 (List.mem_range.2 hj)
  have hjdrop : j ∈ (sortedIndices rw).drop k := by
    rw [hsplit] at hjmem
    rcases List.mem_append.1 hjmem with h | h
    · exact absurd h hjn
    · exact h
  exact hcross i hi j hjdrop

/-- C4: the expert selection of the MoE forward is the first `k`
entries of a stable descending sort of the expert indices by routing
weight: the sorted index list is a permutation of `0..n_experts`
pairwise ordered by (weight descending, then index ascending), the
selected prefix inherits that order, and every selected expert either
strictly outweighs every unselected one or ties with a larger index —
exactly stable-sort top-k semantics. -/
theorem C4_moe_topk_stable_descending (rw : List ℚ) (k : Nat) :
    List.Perm (sortedIndices rw) (List.range rw.length)
    ∧ List.Pairwise (descOrder rw) (sortedIndices rw)
    ∧ selExperts k rw = (sortedIndices rw).take k
    ∧ List.Pairwise (descOrder rw) (selExperts k rw)
    ∧ (∀ i ∈ selExperts k rw, ∀ j, j < rw.length → j ∉ selExperts k rw →
        descOrder rw i j) :=
  ⟨sortedIndices_perm rw, sortedIndices_pairwise_desc rw, rfl,
   selExperts_pairwise_desc k rw, selExperts_beats_unselected k rw⟩

/-- Witness for C4 on the routing row `[1, 1, 2]` with `k = 2`:
expert 2 has the highest weight, experts 0 and 1 tie and keep index
order, so the selection is `[2, 0]` and the selected expert 0 beats
the unselected tied expert 1 only through its smaller index. -/
theorem C4_moe_topk_stable_descending_witness :
    selExperts 2 [1, 1, 2] = [2, 0]
    ∧ descOrder [1, 1, 2] 0 1 :=
  ⟨by decide,
   (C4_moe_topk_stable_descending [1, 1, 2] 2).2.2.2.2 0
     (by decide) 1 (by decide) (by decide)⟩

theorem getD_set_self {α : Type} (l : List α) (i : Nat) (v d : α)
    (h : i < l.length) : (l.set i v).getD i d = v := by
  rw [List.getD_eq_getElem?_getD, List.getElem?_set_self', List.getElem?_eq_getElem h]
  rfl

theorem getD_set_ne {α : Type} (l : List α) {i j : Nat} (v : α) (d : α)
    (h : i ≠ j) : (l.set i v).getD j d = l.getD j d := by
  rw [List.getD_eq_getElem?_getD, List.getElem?_set_ne h,
    ← List.getD_eq_getElem?_getD]

theorem replicate_nil_getD {β : Type} (n e : Nat) :
    (List.replicate n ([] : List β)).getD e [] = [] := by
  rcases Nat.lt_or_ge e n with h | h
  · rw [List.getD_eq_getElem?_getD, List.getElem?_eq_getElem (by simpa using h)]
    simp
  · rw [List.getD_eq_getElem?_getD, List.getElem?_eq_none (by simpa using h)]
    rfl

theorem pushAll_cons {β : Type} (rowVal : Nat → β) (e : Nat) (rest : List Nat)
    (ls : List (List β)) :
    pushAll rowVal (e :: rest) ls =
      pushAll rowVal rest (ls.set e ((ls.getD e []) ++ [rowVal e])) := rfl

theorem pushAll_length {β : Type} (rowVal : Nat → β) :
    ∀ (sel : List Nat) (ls : List (List β)),
      (pushAll rowVal sel ls).length = ls.length
  | [], _ => rfl
  | e :: rest, ls => by
      rw [pushAll_cons, pushAll_length rowVal rest _, List.length_set]

theorem pushAll_getD {β : Type} (rowVal : Nat → β) :
    ∀ (sel : List Nat) (ls : List (List β)) (e : Nat),
      sel.Nodup → (∀ e' ∈ sel, e' < ls.length) →
      (pushAll rowVal sel ls).getD e [] =
        if e ∈ sel then ls.getD e [] ++ [rowVal e] else ls.getD e []
  | [], ls, e, _, _ => by simp [pushAll]
  | e₁ :: rest, ls, e, hnd, hb => by
      rw [pushAll_cons]
      have hnd' := List.nodup_cons.1 hnd
      have hb' : ∀ e' ∈ rest,
          e' < (ls.set e₁ ((ls.getD e₁ []) ++ [rowVal e₁])).length := by
        rw [List.length_set]
        exact fun e' h => hb e' (List.mem_cons_of_mem _ h)
      have ih := pushAll_getD rowVal rest
        (ls.set e₁ ((ls.getD e₁ []) ++ [rowVal e₁])) e hnd'.2 hb'
      by_cases he : e = e₁
      · subst he
        rw [ih, if_neg hnd'.1, if_pos (List.mem_cons_self e rest),
          getD_set_self _ _ _ _ (hb e (List.mem_cons_self e rest))]
      · have hgd : (ls.set e₁ ((ls.getD e₁ []) ++ [rowVal e₁])).getD e [] =
            ls.getD e [] := getD_set_ne _ _ _ (fun hh => he hh.symm)
        rw [ih, hgd]
        by_cases hem : e ∈ rest
        · rw [if_pos hem, if_pos (List.mem_cons_of_mem e₁ hem)]
        · rw [if_neg hem, if_neg (by
            intro hmem
            rcases List.mem_cons.1 hmem with h | h
            · exact he h
            · exact hem h)]

/-- The rows (with their routing-weight vectors) assigned to expert
`e` by the selection loop: the enumerated rows whose top-k selection
contains `e`. -/
def assignedPairs (k : Nat) (rws : List (List ℚ)) (e : Nat) :
    List (Nat × List ℚ) :=
  (rws.enum).filter (fun p => decide (e ∈ selExperts k p.2))

theorem assign_fold (nE k e : Nat) :
    ∀ (l : List (List ℚ)) (m : Nat) (a : Assign),
      a.topX.length = nE → a.selRws.length = nE →
      (∀ rw ∈ l, rw.length = nE) → e < nE →
      (((List.enumFrom m l).foldl (fun a p => pushRow k p.1 p.2 a) a).topX.getD e []
          = a.topX.getD e [] ++
            (((List.enumFrom m l).filter
              (fun p => decide (e ∈ selExperts k p.2))).map Prod.fst))
      ∧ (((List.enumFrom m l).foldl (fun a p => pushRow k p.1 p.2 a) a).selRws.getD e []
          = a.selRws.getD e [] ++
            (((List.enumFrom m l).filter
              (fun p => decide (e ∈ selExperts k p.2))).map
              (fun p => normWeight k p.2 e)))
      ∧ ((List.enumFrom m l).foldl (fun a p => pushRow k p.1 p.2 a) a).topX.length = nE
      ∧ ((List.enumFrom m l).foldl (fun a p => pushRow k p.1 p.2 a) a).selRws.length = nE
  | [], m, a, h1, h2, _, _ => by simp [h1, h2]
  | rw₀ :: l', m, a, h1, h2, hrow, he => by
      have hsel_nd := selExperts_nodup k rw₀
      have hrw₀ : rw₀.length = nE := hrow rw₀ (List.mem_cons_self rw₀ l')
      have hselb : ∀ e' ∈ selExperts k rw₀, e' < a.topX.length := by
        intro e' h'
        rw [h1, ← hrw₀]
        exact selExperts_mem_lt k rw₀ h'
      have hselb2 : ∀ e' ∈ selExperts k rw₀, e' < a.selRws.length := by
        intro e' h'
        rw [h2, ← hrw₀]
        exact selExperts_mem_lt k rw₀ h'
      have ha1 : (pushRow k m rw₀ a).topX.length = nE := by
        show (pushAll _ _ _).length = nE
        rw [pushAll_length, h1]
      have ha2 : (pushRow k m rw₀ a).selRws.length = nE := by
        show (pushAll _ _ _).length = nE
        rw [pushAll_length, h2]
      have hrow' : ∀ rw ∈ l', rw.length = nE :=
        fun rw h => hrow rw (List.mem_cons_of_mem _ h)
      have ih := assign_fold nE k e l' (m + 1) (pushRow k m rw₀ a) ha1 ha2 hrow' he
      have htx : (pushRow k m rw₀ a).topX.getD e [] =
          if e ∈ selExperts k rw₀ then a.topX.getD e [] ++ [m]
          else a.topX.getD e [] :=
        pushAll_getD _ _ _ _ hsel_nd hselb
      have hsr : (pushRow k m rw₀ a).selRws.getD e [] =
          if e ∈ selExperts k rw₀ then a.selRws.getD e [] ++ [normWeight k rw₀ e]
          else a.selRws.getD e [] :=
        pushAll_getD _ _ _ _ hsel_nd hselb2
      have henum : List.enumFrom m (rw₀ :: l') =
          (m, rw₀) :: List.enumFrom (m + 1) l' := rfl
      rw [henum]
      have hfoldl : List.foldl (fun a p => pushRow k p.1 p.2 a) a
          ((m, rw₀) :: List.enumFrom (m + 1) l') =
          List.foldl (fun a p => pushRow k p.1 p.2 a) (pushRow k m rw₀ a)
            (List.enumFrom (m + 1) l') := rfl
      rw [hfoldl]
      by_cases hmem : e ∈ selExperts k rw₀
      · have hfil : List.filter (fun p => decide (e ∈ selExperts k p.2))
            ((m, rw₀) :: List.enumFrom (m + 1) l') =
            (m, rw₀) :: List.filter (fun p => decide (e ∈ selExperts k p.2))
              (List.enumFrom (m + 1) l') := by
          rw [List.filter_cons, if_pos (by simpa using hmem)]
        rw [hfil, List.map_cons, List.map_cons]
        refine ⟨?_, ?_, ih.2.2.1, ih.2.2.2⟩
        · rw [ih.1, htx, if_pos hmem, List.append_assoc]
          rfl
        · rw [ih.2.1, hsr, if_pos hmem, List.append_assoc]
          rfl
      · have hfil : List.filter (fun p => decide (e ∈ selExperts k p.2))
            ((m, rw₀) :: List.enumFrom (m + 1) l') =
            List.filter (fun p => decide (e ∈ selExperts k p.2))
              (List.enumFrom (m + 1) l') := by
          rw [List.filter_cons, if_neg (by simpa using hmem)]
        rw [hfil]
        exact ⟨by rw [ih.1, htx, if_neg hmem],
          by rw [ih.2.1, hsr, if_neg hmem], ih.2.2.1, ih.2.2.2⟩

theorem moeAssign_topX_getD (nE k : Nat) (rws : List (List ℚ))
    (hrow : ∀ rw ∈ rws, rw.length = nE) {e : Nat} (he : e < nE) :
    (moeAssign nE k rws).topX.getD e [] = (assignedPairs k rws e).map Prod.fst := by
  have h := (assign_fold nE k e rws 0
    ⟨List.replicate nE [], List.replicate nE []⟩
    (by simp) (by simp) hrow he).1
  rw [show (⟨List.replicate nE [], List.replicate nE []⟩ : Assign).topX
      = List.replicate nE [] from rfl, replicate_nil_getD, List.nil_append] at h
  exact h

theorem moeAssign_selRws_getD (nE k : Nat) (rws : List (List ℚ))
    (hrow : ∀ rw ∈ rws, rw.length = nE) {e : Nat} (he : e < nE) :
    (moeAssign nE k rws).selRws.getD e [] =
      (assignedPairs k rws e).map (fun p => normWeight k p.2 e) := by
  have h := (assign_fold nE k e rws 0
    ⟨List.replicate nE [], List.replicate nE []⟩
    (by simp) (by simp) hrow he).2.1
  rw [show (⟨List.replicate nE [], List.replicate nE []⟩ : Assign).selRws
      = List.replicate nE [] from rfl, replicate_nil_getD, List.nil_append] at h
  exact h

theorem indexAdd_length :
    ∀ (ys : List Vec) (rows : List Nat) (vals : List Vec),
      (indexAdd ys rows vals).length = ys.length
  | ys, r :: rs, v :: vs => by
      show (indexAdd (ys.set r (vAdd (ys.getD r vZero) v)) rs vs).length = ys.length
      rw [indexAdd_length _ rs vs, List.length_set]
  | _, [], vals => by cases vals <;> rfl
  | _, _ :: _, [] => rfl

theorem indexAdd_getD :
    ∀ (ys : List Vec) (rows : List Nat) (vals : List Vec) (t : Nat),
      t < ys.length →
      (indexAdd ys rows vals).getD t vZero =
        ys.getD t vZero +
          (((rows.zip vals).filter (fun pr => pr.1 = t)).map Prod.snd).sum
  | ys, [], vals, t, _ => by cases vals <;> exact (add_zero _).symm
  | ys, _ :: _, [], t, _ => (add_zero _).symm
  | ys, r :: rs, v :: vs, t, ht => by
      have ih := indexAdd_getD (ys.set r (vAdd (ys.getD r vZero) v)) rs vs t
        (by rw [List.length_set]; exact ht)
      show (indexAdd (ys.set r (vAdd (ys.getD r vZero) v)) rs vs).getD t vZero = _
      rw [ih]
      by_cases hr : r = t
      · subst hr
        rw [getD_set_self _ _ _ _ ht]
        have hfil : ((r :: rs).zip (v :: vs)).filter (fun pr => pr.1 = r) =
            (r, v) :: ((rs.zip vs).filter (fun pr => pr.1 = r)) := by
          show ((r, v) :: rs.zip vs).filter _ = _
          rw [List.filter_cons, if_pos (by simp)]
        rw [hfil, List.map_cons, List.sum_cons, vAdd_eq_add, add_assoc]
      · rw [getD_set_ne _ _ _ hr]
        have hfil : ((r :: rs).zip (v :: vs)).filter (fun pr => pr.1 = t) =
            (rs.zip vs).filter (fun pr => pr.1 = t) := by
          show ((r, v) :: rs.zip vs).filter _ = _
          rw [List.filter_cons, if_neg (by simpa using hr)]
        rw [hfil]

theorem zipWith_map_same {α β γ δ : Type} (f : β → γ → δ) (g : α → β)
    (h : α → γ) :
    ∀ l : List α, List.zipWith f (l.map g) (l.map h) =
      l.map (fun x => f (g x) (h x))
  | [] => rfl
  | x :: xs => by
      simp only [List.map_cons, List.zipWith_cons_cons]
      rw [zipWith_map_same f g h xs]

theorem zip_map_same {α β γ : Type} (g : α → β) (h : α → γ) :
    ∀ l : List α, (l.map g).zip (l.map h) = l.map (fun x => (g x, h x))
  | [] => rfl
  | x :: xs => by
      simp only [List.map_cons, List.zip_cons_cons]
      rw [zip_map_same g h xs]

theorem filter_fst_eq_nil {α : Type} (t : Nat) :
    ∀ L : List (Nat × α), t ∉ L.map Prod.fst →
      L.filter (fun p => p.1 = t) = []
  | [], _ => rfl
  | p :: rest, h => by
      simp only [List.map_cons, List.mem_cons, not_or] at h
      rw [List.filter_cons, if_neg (by simpa using fun hh => h.1 hh.symm)]
      exact filter_fst_eq_nil t rest h.2

theorem filter_fst_eq_singleton {α : Type} (t : Nat) :
    ∀ (L : List (Nat × α)), (L.map Prod.fst).Nodup →
      ∀ p₀ ∈ L, p₀.1 = t → L.filter (fun p => p.1 = t) = [p₀]
  | [], _, p₀, hp, _ => absurd hp (List.not_mem_nil p₀)
  | p :: rest, hnd, p₀, hp, hpt => by
      rw [List.map_cons] at hnd
      have hnd' := List.nodup_cons.1 hnd
      rcases List.mem_cons.1 hp with rfl | hp'
      · rw [List.filter_cons, if_pos (by simpa using hpt)]
        have hnil : rest.filter (fun p => p.1 = t) = [] := by
          apply filter_fst_eq_nil
          rw [← hpt]
          exact hnd'.1
        rw [hnil]
      · have hfstmem : t ∈ rest.map Prod.fst := by
          rw [← hpt]
          exact List.mem_map_of_mem Prod.fst hp'
        have hne : p.1 ≠ t := fun hh => hnd'.1 (hh ▸ hfstmem)
        rw [List.filter_cons, if_neg (by simpa using hne)]
        exact filter_fst_eq_singleton t rest hnd'.2 p₀ hp' hpt

/-- The contribution of one enumerated expert `(expert_idx, expert)` to
accumulator row `t`: the scaled output rows scattered onto `t` by
`index_add`. -/
def stepContrib (xs : List Vec) (a : Assign) (t : Nat)
    (p : Nat × (Vec → Vec)) : Vec :=
  ((((a.topX.getD p.1 []).zip
      (List.zipWith vSmul (a.selRws.getD p.1 [])
        (((a.topX.getD p.1 []).map (fun r => xs.getD r vZero)).map p.2))).filter
    (fun pr => pr.1 = t)).map Prod.snd).sum

theorem moeExpertStep_length (xs : List Vec) (a : Assign) (ys : List Vec)
    (p : Nat × (Vec → Vec)) : (moeExpertStep xs a ys p).length = ys.length := by
  simp only [moeExpertStep]
  split
  · rfl
  · rw [indexAdd_length]

theorem moeExpertStep_getD (xs : List Vec) (a : Assign) (ys : List Vec)
    (p : Nat × (Vec → Vec)) (t : Nat) (ht : t < ys.length) :
    (moeExpertStep xs a ys p).getD t vZero =
      ys.getD t vZero + stepContrib xs a t p := by
  simp only [moeExpertStep, stepContrib]
  by_cases hemp : (a.topX.getD p.1 []).isEmpty
  · rw [if_pos hemp]
    have he : a.topX.getD p.1 [] = [] := by
      cases h : a.topX.getD p.1 [] with
      | nil => rfl
      | cons x l => rw [h] at hemp; cases hemp
    rw [he]
    simp
  · rw [if_neg hemp]
    exact indexAdd_getD ys _ _ t ht

theorem moeFold_getD (xs : List Vec) (a : Assign) (t : Nat) :
    ∀ (es : List (Nat × (Vec → Vec))) (ys : List Vec), t < ys.length →
      (es.foldl (moeExpertStep xs a) ys).getD t vZero =
        ys.getD t vZero + (es.map (stepContrib xs a t)).sum
  | [], ys, _ => by simp
  | p :: es', ys, ht => by
      rw [List.foldl_cons]
      have hlen : t < (moeExpertStep xs a ys p).length := by
        rw [moeExpertStep_length]; exact ht
      rw [moeFold_getD xs a t es' _ hlen, moeExpertStep_getD xs a ys p t ht,
        List.map_cons, List.sum_cons, add_assoc]

theorem enum_mem_spec {α : Type} (l : List α) (d : α) :
    ∀ p : Nat × α, p ∈ l.enum →
      p.1 < l.length ∧ p.2 = l.getD p.1 d := by
  intro p hp
  rw [List.mem_enum_iff_getElem?] at hp
  have h1 : p.1 < l.length := by
    by_contra hcon
    rw [List.getElem?_eq_none (le_of_not_lt hcon)] at hp
    cases hp
  refine ⟨h1, ?_⟩
  rw [List.getD_eq_getElem?_getD, hp]
  rfl

theorem enum_mem_of_lt {α : Type} (l : List α) (d : α) {t : Nat}
    (ht : t < l.length) : (t, l.getD t d) ∈ l.enum := by
  rw [List.mem_enum_iff_getElem?, List.getElem?_eq_getElem ht,
    List.getD_eq_getElem l d ht]

theorem assignedPairs_fst_nodup (k : Nat) (rws : List (List ℚ)) (e : Nat) :
    ((assignedPairs k rws e).map Prod.fst).Nodup := by
  have hsub : (assignedPairs k rws e).Sublist rws.enum := List.filter_sublist _
  have hsub2 : ((assignedPairs k rws e).map Prod.fst).Sublist
      (rws.enum.map Prod.fst) := hsub.map Prod.fst
  rw [List.enum_map_fst] at hsub2
  exact hsub2.nodup (List.nodup_range _)

theorem stepContrib_eval (nE k : Nat) (rws : List (List ℚ)) (xs : List Vec)
    (hrow : ∀ rw ∈ rws, rw.length = nE) (e : Nat) (he : e < nE)
    (ex : Vec → Vec) (t : Nat) :
    stepContrib xs (moeAssign nE k rws) t (e, ex) =
      if t < rws.length ∧ e ∈ selExperts k (rws.getD t []) then
        vSmul (normWeight k (rws.getD t []) e) (ex (xs.getD t vZero))
      else 0 := by
  unfold stepContrib
  rw [show ((e, ex) : Nat × (Vec → Vec)).1 = e from rfl,
    show ((e, ex) : Nat × (Vec → Vec)).2 = ex from rfl,
    moeAssign_topX_getD nE k rws hrow he, moeAssign_selRws_getD nE k rws hrow he,
    List.map_map, List.map_map, zipWith_map_same, zip_map_same, List.filter_map,
    List.map_map]
  simp only [Function.comp_def]
  by_cases hc : t < rws.length ∧ e ∈ selExperts k (rws.getD t [])
  · rw [if_pos hc]
    have hmem : (t, rws.getD t []) ∈ assignedPairs k rws e := by
      rw [assignedPairs, List.mem_filter]
      exact ⟨enum_mem_of_lt rws [] hc.1, by simpa using hc.2⟩
    rw [filter_fst_eq_singleton t (assignedPairs k rws e)
      (assignedPairs_fst_nodup k rws e) (t, rws.getD t []) hmem rfl]
    simp
  · rw [if_neg hc]
    have hnotin : t ∉ (assignedPairs k rws e).map Prod.fst := by
      intro hmem
      obtain ⟨p, hp, hpt⟩ := List.mem_map.1 hmem
      have hp' := List.mem_filter.1 hp
      obtain ⟨h1, h2⟩ := enum_mem_spec rws [] p hp'.1
      apply hc
      constructor
      · rw [← hpt]; exact h1
      · have hsel : e ∈ selExperts k p.2 := by simpa using hp'.2
        rw [h2, hpt] at hsel
        exact hsel
    rw [filter_fst_eq_nil t (assignedPairs k rws e) hnotin]
    rfl

theorem sum_map_ite_mem (S : List Nat) (f : Nat → Vec) :
    ∀ l : List Nat,
      (l.map (fun e => if e ∈ S then f e else 0)).sum =
        ((l.filter (fun e => decide (e ∈ S))).map f).sum
  | [] => rfl
  | x :: xs => by
      simp only [List.map_cons, List.sum_cons, List.filter_cons]
      by_cases h : x ∈ S
      · rw [if_pos h, if_pos (by simpa using h), List.map_cons, List.sum_cons,
          sum_map_ite_mem S f xs]
      · rw [if_neg h, if_neg (by simpa using h), sum_map_ite_mem S f xs, zero_add]

theorem filter_range_perm (S : List Nat) (n : Nat) (hnd : S.Nodup)
    (hsub : ∀ e ∈ S, e < n) :
    List.Perm ((List.range n).filter (fun e => decide (e ∈ S))) S := by
  refine (List.perm_ext_iff_of_nodup ((List.nodup_range n).filter _) hnd).2 ?_
  intro a
  simp only [List.mem_filter, List.mem_range, decide_eq_true_eq]
  exact ⟨fun h => h.2, fun h => ⟨hsub a h, h⟩⟩

theorem getD_map_const_vZero (xs : List Vec) (t : Nat) (ht : t < xs.length) :
    (xs.map (fun _ => vZero)).getD t vZero = vZero := by
  rw [List.getD_eq_getElem?_getD, List.getElem?_map, List.getElem?_eq_getElem ht]
  rfl

/-- C5: in the MoE forward, each token's selected routing weights are
renormalized by the sum of that token's selected weights and sum to 1
(softmax weights are positive, so the sum is nonzero); a token routes
to at most `k` experts; the output row of each token is exactly the
weighted sum of its selected experts' outputs with those renormalized
weights — experts outside the token's top-k contribute nothing; and an
expert with an empty assignment is skipped, leaving the accumulator
unchanged. -/
theorem C5_moe_renormalization_convex_combination
    (experts : List (Vec → Vec)) (k : Nat) (rws : List (List ℚ)) (xs : List Vec)
    (hk : 0 < k) (hE : 0 < experts.length)
    (hrow : ∀ rw ∈ rws, rw.length = experts.length)
    (hpos : ∀ rw ∈ rws, ∀ w ∈ rw, 0 < w)
    (hxs : xs.length = rws.length) :
    (∀ t, t < rws.length →
        ((selExperts k (rws.getD t [])).map (normWeight k (rws.getD t []))).sum = 1)
    ∧ (∀ t, (selExperts k (rws.getD t [])).length ≤ k)
    ∧ (∀ t, t < rws.length →
        (moeForward experts k rws xs).getD t vZero =
          ((selExperts k (rws.getD t [])).map (fun e =>
            vSmul (normWeight k (rws.getD t []) e)
              ((experts.getD e id) (xs.getD t vZero)))).sum)
    ∧ (∀ (a : Assign) (ys : List Vec) (p : Nat × (Vec → Vec)),
        (a.topX.getD p.1 []).isEmpty = true → moeExpertStep xs a ys p = ys) := by
  have hrowmem : ∀ t, t < rws.length → rws.getD t [] ∈ rws := by
    intro t ht
    rw [List.getD_eq_getElem rws [] ht]
    exact List.getElem_mem _
  have hSpos : ∀ t, t < rws.length → 0 < selSum k (rws.getD t []) := by
    intro t ht
    have hrl : (rws.getD t []).length = experts.length := hrow _ (hrowmem t ht)
    have hne : selExperts k (rws.getD t []) ≠ [] := by
      rw [← List.length_pos, selExperts, List.length_take,
        (sortedIndices_perm (rws.getD t [])).length_eq, List.length_range, hrl]
      exact lt_min hk hE
    refine List.sum_pos _ ?_ (by
      intro hnil
      exact hne (List.map_eq_nil_iff.1 hnil))
    intro q hq
    obtain ⟨e, he, rfl⟩ := List.mem_map.1 hq
    have helt : e < (rws.getD t []).length := selExperts_mem_lt k _ he
    rw [rwGet, List.getD_eq_getElem _ 0 helt]
    exact hpos _ (hrowmem t ht) _ (List.getElem_mem _)
  refine ⟨?_, ?_, ?_, ?_⟩
  · intro t ht
    have hSne : selSum k (rws.getD t []) ≠ 0 := ne_of_gt (hSpos t ht)
    have h1 : ((selExperts k (rws.getD t [])).map (normWeight k (rws.getD t []))).sum
        = ((selExperts k (rws.getD t [])).map
            (fun e => rwGet (rws.getD t []) e * (selSum k (rws.getD t []))⁻¹)).sum := by
      apply congrArg
      apply List.map_congr_left
      intro e _
      rw [normWeight, div_eq_mul_inv]
    rw [h1, List.sum_map_mul_right, ← selSum, mul_inv_cancel₀ hSne]
  · intro t
    exact le_trans (List.length_take_le k _) (le_refl k)
  · intro t ht
    have ht' : t < xs.length := by rw [hxs]; exact ht
    have hlen0 : t < (xs.map (fun _ : Vec => vZero)).length := by
      rw [List.length_map]; exact ht'
    show (List.foldl (moeExpertStep xs (moeAssign experts.length k rws))
        (xs.map (fun _ => vZero)) experts.enum).getD t vZero = _
    rw [moeFold_getD xs _ t experts.enum _ hlen0, getD_map_const_vZero xs t ht',
      vZero_eq_zero, zero_add]
    have hcongr : ∀ p ∈ experts.enum,
        stepContrib xs (moeAssign experts.length k rws) t p =
        (fun e => if e ∈ selExperts k (rws.getD t []) then
          vSmul (normWeight k (rws.getD t []) e)
            ((experts.getD e id) (xs.getD t vZero)) else 0) p.1 := by
      intro p hp
      obtain ⟨h1, h2⟩ := enum_mem_spec experts id p hp
      have hstep := stepContrib_eval experts.length k rws xs hrow p.1 h1 p.2 t
      rw [show p = (p.1, p.2) from rfl, hstep, h2]
      by_cases hm : p.1 ∈ selExperts k (rws.getD t [])
      · rw [if_pos ⟨ht, hm⟩]
        exact (if_pos hm).symm
      · rw [if_neg (fun hh => hm hh.2)]
        exact (if_neg hm).symm
    rw [List.map_congr_left hcongr]
    have hcomp : (fun p : Nat × (Vec → Vec) =>
        (fun e => if e ∈ selExperts k (rws.getD t []) then
          vSmul (normWeight k (rws.getD t []) e)
            ((experts.getD e id) (xs.getD t vZero)) else 0) p.1) =
        (fun e => if e ∈ selExperts k (rws.getD t []) then
          vSmul (normWeight k (rws.getD t []) e)
            ((experts.getD e id) (xs.getD t vZero)) else 0) ∘ Prod.fst := rfl
    rw [hcomp, ← List.map_map, List.enum_map_fst,
      sum_map_ite_mem (selExperts k (rws.getD t [])) _ (List.range experts.length)]
    have hrl : (rws.getD t []).length = experts.length := hrow _ (hrowmem t ht)
    have hperm := filter_range_perm (selExperts k (rws.getD t [])) experts.length
      (selExperts_nodup _ _)
      (fun e he' => by rw [← hrl]; exact selExperts_mem_lt _ _ he')
    rw [(hperm.map _).sum_eq]
    rfl
  · intro a ys p h
    simp only [moeExpertStep]
    rw [if_pos h]

/-- Witness for C5: with two identity experts, `k = 1` and the single
routing row `[1, 2]`, the renormalized selected weights of token 0 sum
to 1. -/
theorem C5_moe_renormalization_convex_combination_witness :
    ((selExperts 1 (([[(1 : ℚ), 2]]).getD 0 [])).map
      (normWeight 1 (([[(1 : ℚ), 2]]).getD 0 []))).sum = 1 :=
  (C5_moe_renormalization_convex_combination
    [fun v => v, fun v => v] 1 [[1, 2]] [fun _ => 3]
    (by decide) (by decide)
    (by
      intro rw h
      simp only [List.mem_singleton] at h
      subst h
      decide)
    (by
      intro rw h
      simp only [List.mem_singleton] at h
      subst h
      intro w hw
      rcases List.mem_cons.1 hw with rfl | hw
      · decide
      · rcases List.mem_singleton.1 hw with rfl
        decide)
    rfl).1 0 (by decide)

/-! ### Dual-pass orchestration — `ModelWeights::inner_forward`
(lines 685–737) and `ModelWeights::forward` (lines 739–804)

The orchestration is verified as a state machine over the model's
mutable state: the mask memo table and the two KV-cache arenas
(`cache.lock()`, the primary set, and `cache.xlora_lock()`, the
scaling/X-LoRA set).  Hidden-state numerics flow through backend
kernels and the per-layer weights, which are immutable; the per-layer
cache effect is the `forward_attn` store verified contentfully above,
tracked here by the cached key/value sequence lengths.  Token tensors
are tracked by their `dims2` shape plus their token payload (so that
"which input tensor a pass receives" is observable). -/

/-- One slot of a cache arena: either a real (K, V) pair with its
cached sequence lengths, or the `(1,)`-shaped zero placeholder pair
written by `forward` (lines 766–773) in no-cache mode. -/
inductive CacheEntry
  | kv (kLen vLen : Nat)
  | placeholder
deriving DecidableEq

/-- An `input_ids` tensor: its `dims2` shape and its token payload. -/
structure Ids where
  bSize : Nat
  seqLen : Nat
  toks : List Nat
deriving DecidableEq

/-- The shape of a scalings tensor as produced by
`get_dummy_scalings(b_size, seq_len, ..)` (lines 750–755). -/
structure ScalingsShape where
  bSize : Nat
  seqLen : Nat
deriving DecidableEq

/-- The mutable state of `ModelWeights`: the mask memo and the two
cache arenas.  All other fields (embeddings, layer weights, output
head, classifier weights, device) are immutable model parameters. -/
structure MState where
  masks : MaskTable
  cache : List (Option CacheEntry)
  xcache : List (Option CacheEntry)
deriving DecidableEq

/-- The cache effect of one layer's `forward_attn` on its slot
(lines 241–249) at the length level: an empty slot receives the new
`seq_len`-long keys/values, a kv slot grows by `seq_len`, and a
placeholder slot makes `Tensor::cat` fail (rank mismatch between the
`(1,)`-placeholder and a 4-d tensor). -/
def attnCacheUpdate (s : Nat) : Option CacheEntry → Option (Option CacheEntry)
  | none => some (some (.kv s s))
  | some (.kv a b) => some (some (.kv (a + s) (b + s)))
  | some .placeholder => none

/-- The layer loop of `inner_forward` (lines 710–735) as it acts on
the selected cache arena: layer `i` updates slot `i`
(`cache.get_mut(i).unwrap()` panics when the arena has fewer slots
than layers). -/
def updateSlots (s : Nat) :
    Nat → List (Option CacheEntry) → Option (List (Option CacheEntry))
  | 0, slots => some slots
  | _ + 1, [] => none
  | n + 1, c :: cs =>
    match attnCacheUpdate s c with
    | none => none
    | some c' =>
      match updateSlots s n cs with
      | none => none
      | some cs' => some (c' :: cs')

/-- `ModelWeights::inner_forward` (lines 685–737) as it acts on the
model state: memoize the mask for `seq_len` (line 694), then pick the
arena — `xlora_lock()` when `is_full_pass`, first cleared to `None`
slots when additionally `no_kv_cache` (lines 697–709), `lock()`
otherwise — and run every layer's attention on its slot. -/
def inner_forward (nLayers seqLen : Nat) (isFullPass noKvCache : Bool)
    (st : MState) : Option MState :=
  let st1 : MState := { st with masks := (maskOp seqLen st.masks).2 }
  if isFullPass then
    let xc0 := if noKvCache then List.replicate st1.xcache.length none
      else st1.xcache
    match updateSlots seqLen nLayers xc0 with
    | none => none
    | some xc' => some { st1 with xcache := xc' }
  else
    match updateSlots seqLen nLayers st1.cache with
    | none => none
    | some c' => some { st1 with cache := c' }

/-- The argument selection of the scaling (classifier-observation)
pass in `forward` (lines 747–784): the dummy scalings are built from
`input_ids_full`'s batch size and `input_ids`'s sequence length; with
`no_kv_cache` the pass receives the full ids/offsets and
`is_full_pass = true`, otherwise the incremental ids/offsets and
`is_full_pass = false`.  Returns (ids, offsets, dummy scalings shape,
is_full_pass). -/
def scalingPassArgs (ids idsFull : Ids) (offs offsFull : List Nat)
    (noKvCache : Bool) : Ids × List Nat × ScalingsShape × Bool :=
  if noKvCache then (idsFull, offsFull, ⟨idsFull.bSize, ids.seqLen⟩, true)
  else (ids, offs, ⟨idsFull.bSize, ids.seqLen⟩, false)

/-- The first `inner_forward` call of `forward` (lines 757–784). -/
def scalingPass (nLayers : Nat) (ids idsFull : Ids) (offs offsFull : List Nat)
    (noKvCache : Bool) (st : MState) : Option MState :=
  inner_forward nLayers
    (scalingPassArgs ids idsFull offs offsFull noKvCache).1.seqLen
    (scalingPassArgs ids idsFull offs offsFull noKvCache).2.2.2 noKvCache st

/-- The second `inner_forward` call of `forward` (lines 788–803): the
full ids with `is_full_pass = true` in no-cache mode, the incremental
ids also with `is_full_pass = true` (the source comment:
"is_full_pass=true is ok because no_kv_cache=false") otherwise. -/
def finalPass (nLayers : Nat) (ids idsFull : Ids) (noKvCache : Bool)
    (st : MState) : Option MState :=
  if noKvCache then inner_forward nLayers idsFull.seqLen true noKvCache st
  else inner_forward nLayers ids.seqLen true noKvCache st

/-- `ModelWeights::forward` (lines 739–804) as it acts on the model
state: the scaling pass, then — in no-cache mode only — the primary
arena is overwritten with `(1,)`-shaped zero placeholder pairs
(lines 766–773), then the classifier call (stateless for the model)
and the final pass. -/
def forward (nLayers : Nat) (ids idsFull : Ids) (offs offsFull : List Nat)
    (noKvCache : Bool) (st : MState) : Option MState :=
  match scalingPass nLayers ids idsFull offs offsFull noKvCache st with
  | none => none
  | some st1 =>
    finalPass nLayers ids idsFull noKvCache
      (if noKvCache then
        { st1 with cache := List.replicate st1.cache.length (some .placeholder) }
      else st1)

/-- An arena the layer loop can run on: at least one slot per layer
and no placeholder among the used slots. -/
def SlotsReady (n : Nat) (slots : List (Option CacheEntry)) : Prop :=
  n ≤ slots.length ∧ ∀ i, i < n → slots.getD i none ≠ some .placeholder

/-- The effect of one layer's attention on a usable slot. -/
def bumpKV (s : Nat) : Option CacheEntry → Option CacheEntry
  | none => some (.kv s s)
  | some (.kv a b) => some (.kv (a + s) (b + s))
  | some .placeholder => some .placeholder

theorem updateSlots_ready (s : Nat) :
    ∀ (n : Nat) (slots : List (Option CacheEntry)), SlotsReady n slots →
      updateSlots s n slots =
        some ((slots.take n).map (bumpKV s) ++ slots.drop n)
  | 0, slots, _ => by simp [updateSlots]
  | n + 1, [], h => absurd h.1 (by simp)
  | n + 1, c :: cs, h => by
      have hc : c ≠ some .placeholder := by
        have h0 := h.2 0 (Nat.succ_pos n)
        simpa using h0
      have hready : SlotsReady n cs := by
        refine ⟨?_, ?_⟩
        · have h1 := h.1
          simpa [Nat.succ_le_succ_iff] using h1
        · intro i hi
          have h2 := h.2 (i + 1) (Nat.succ_lt_succ hi)
          simpa using h2
      have hrec := updateSlots_ready s n cs hready
      cases c with
      | none =>
        simp only [updateSlots, attnCacheUpdate, hrec, List.take_succ_cons,
          List.map_cons, List.drop_succ_cons, List.cons_append]
        rfl
      | some e =>
        cases e with
        | kv a b =>
          simp only [updateSlots, attnCacheUpdate, hrec, List.take_succ_cons,
            List.map_cons, List.drop_succ_cons, List.cons_append]
          rfl
        | placeholder => exact absurd rfl hc

theorem inner_forward_incremental (nLayers s : Nat) (nkc : Bool) (st : MState)
    (h : SlotsReady nLayers st.cache) :
    inner_forward nLayers s false nkc st =
      some { st with
        masks := (maskOp s st.masks).2,
        cache := (st.cache.take nLayers).map (bumpKV s) ++
          st.cache.drop nLayers } := by
  have hu := updateSlots_ready s nLayers st.cache h
  simp only [inner_forward, Bool.false_eq_true, if_false, hu]

theorem inner_forward_full_cached (nLayers s : Nat) (st : MState)
    (h : SlotsReady nLayers st.xcache) :
    inner_forward nLayers s true false st =
      some { st with
        masks := (maskOp s st.masks).2,
        xcache := (st.xcache.take nLayers).map (bumpKV s) ++
          st.xcache.drop nLayers } := by
  have hu := updateSlots_ready s nLayers st.xcache h
  simp only [inner_forward, Bool.false_eq_true, if_false, if_pos, hu]

theorem replicate_none_ready (n m : Nat) (h : n ≤ m) :
    SlotsReady n (List.replicate m (none : Option CacheEntry)) := by
  refine ⟨by simpa using h, ?_⟩
  intro i hi
  rcases Nat.lt_or_ge i m with him | him
  · rw [List.getD_eq_getElem?_getD, List.getElem?_eq_getElem (by simpa using him)]
    simp
  · rw [List.getD_eq_getElem?_getD, List.getElem?_eq_none (by simpa using him)]
    simp

theorem inner_forward_full_nocache (nLayers s : Nat) (st : MState)
    (h : nLayers ≤ st.xcache.length) :
    inner_forward nLayers s true true st =
      some { st with
        masks := (maskOp s st.masks).2,
        xcache := ((List.replicate st.xcache.length
            (none : Option CacheEntry)).take nLayers).map (bumpKV s) ++
          (List.replicate st.xcache.length (none : Option CacheEntry)).drop
            nLayers } := by
  have hu := updateSlots_ready s nLayers
    (List.replicate st.xcache.length none) (replicate_none_ready _ _ h)
  simp only [inner_forward, if_pos, hu]

theorem inner_forward_full_frame (n s : Nat) (nkc : Bool) (st st' : MState)
    (h : inner_forward n s true nkc st = some st') : st'.cache = st.cache := by
  simp only [inner_forward, if_pos] at h
  cases hu : updateSlots s n
      (if nkc = true then List.replicate st.xcache.length none
        else st.xcache) with
  | none => rw [hu] at h; cases h
  | some xc' =>
    rw [hu] at h
    have hinj := Option.some.inj h
    rw [← hinj]

theorem inner_forward_incr_frame (n s : Nat) (nkc : Bool) (st st' : MState)
    (h : inner_forward n s false nkc st = some st') : st'.xcache = st.xcache := by
  simp only [inner_forward, Bool.false_eq_true, if_false] at h
  cases hu : updateSlots s n st.cache with
  | none => rw [hu] at h; cases h
  | some c' =>
    rw [hu] at h
    have hinj := Option.some.inj h
    rw [← hinj]

theorem inner_forward_masks (n s : Nat) (fp nkc : Bool) (st st' : MState)
    (h : inner_forward n s fp nkc st = some st') :
    st'.masks = (maskOp s st.masks).2 := by
  cases fp with
  | true =>
    simp only [inner_forward, if_pos] at h
    cases hu : updateSlots s n
        (if nkc = true then List.replicate st.xcache.length none
          else st.xcache) with
    | none => rw [hu] at h; cases h
    | some xc' =>
      rw [hu] at h
      have hinj := Option.some.inj h
      rw [← hinj]
  | false =>
    simp only [inner_forward, Bool.false_eq_true, if_false] at h
    cases hu : updateSlots s n st.cache with
    | none => rw [hu] at h; cases h
    | some c' =>
      rw [hu] at h
      have hinj := Option.some.inj h
      rw [← hinj]

theorem maskOp_preserves_lookup (t t' : Nat) (tbl : MaskTable)
    (m' : List (List Bool)) (h : maskLookup t' tbl = some m') :
    maskLookup t' (maskOp t tbl).2 = some m' := by
  unfold maskOp
  cases hl : maskLookup t tbl with
  | some m => exact h
  | none => exact maskLookup_append_left h _

/-- C1 counterexample: with incremental caching enabled
(`no_cache = false`) and a 1-token incremental input against a 2-token
full context, the scaling pass receives `input_ids` (not
`input_ids_full`), and running it on a fresh 1-layer state grows the
cache it uses by exactly the single incremental token, not the full
context. -/
theorem C1_scaling_pass_full_context_cex :
    (scalingPassArgs ⟨1, 1, [7]⟩ ⟨1, 2, [3, 7]⟩ [1] [0, 1] false).1 ≠
      (⟨1, 2, [3, 7]⟩ : Ids)
    ∧ scalingPass 1 ⟨1, 1, [7]⟩ ⟨1, 2, [3, 7]⟩ [1] [0, 1] false
        ⟨[], [none], [none]⟩ =
      some ⟨[(1, buildMask 1)], [some (.kv 1 1)], [none]⟩ := by decide

/-- C1 amended: the scaling pass runs every layer over the entire
sequence context (`input_ids_full` / `position_offsets_full`, with
`is_full_pass = true`) only when `no_cache = true`; when incremental
caching is enabled (`no_cache = false`) the scaling pass processes
only the incremental `input_ids` / `position_offsets` with
`is_full_pass = false`, growing the primary cache by
`input_ids.seq_len` and relying on it for prior context. -/
theorem C1_scaling_pass_context_selection :
    (∀ (ids idsFull : Ids) (offs offsFull : List Nat),
        (scalingPassArgs ids idsFull offs offsFull true).1 = idsFull
        ∧ (scalingPassArgs ids idsFull offs offsFull true).2.1 = offsFull
        ∧ (scalingPassArgs ids idsFull offs offsFull true).2.2.2 = true
        ∧ (scalingPassArgs ids idsFull offs offsFull false).1 = ids
        ∧ (scalingPassArgs ids idsFull offs offsFull false).2.1 = offs
        ∧ (scalingPassArgs ids idsFull offs offsFull false).2.2.2 = false)
    ∧ (∀ (nLayers : Nat) (ids idsFull : Ids) (offs offsFull : List Nat)
        (st : MState), SlotsReady nLayers st.cache →
        scalingPass nLayers ids idsFull offs offsFull false st =
          some { st with
            masks := (maskOp ids.seqLen st.masks).2,
            cache := (st.cache.take nLayers).map (bumpKV ids.seqLen) ++
              st.cache.drop nLayers })
    ∧ (∀ (nLayers : Nat) (ids idsFull : Ids) (offs offsFull : List Nat)
        (st : MState), nLayers ≤ st.xcache.length →
        scalingPass nLayers ids idsFull offs offsFull true st =
          some { st with
            masks := (maskOp idsFull.seqLen st.masks).2,
            xcache := ((List.replicate st.xcache.length
                (none : Option CacheEntry)).take nLayers).map
                (bumpKV idsFull.seqLen) ++
              (List.replicate st.xcache.length
                (none : Option CacheEntry)).drop nLayers }) := by
  refine ⟨?_, ?_, ?_⟩
  · intro ids idsFull offs offsFull
    exact ⟨rfl, rfl, rfl, rfl, rfl, rfl⟩
  · intro nLayers ids idsFull offs offsFull st h
    exact inner_forward_incremental nLayers ids.seqLen false st h
  · intro nLayers ids idsFull offs offsFull st h
    exact inner_forward_full_nocache nLayers idsFull.seqLen st h

/-- Witness for C1 (amended): a concrete cached-mode scaling pass on a
fresh 1-layer state processes exactly the single incremental token. -/
theorem C1_scaling_pass_context_selection_witness :
    scalingPass 1 ⟨1, 1, [5]⟩ ⟨1, 2, [4, 5]⟩ [1] [0, 1] false
      ⟨[], [none], [none]⟩ =
      some ⟨[(1, buildMask 1)], [some (.kv 1 1)], [none]⟩ :=
  (C1_scaling_pass_context_selection.2.1 1 ⟨1, 1, [5]⟩ ⟨1, 2, [4, 5]⟩
    [1] [0, 1] ⟨[], [none], [none]⟩
    ⟨by decide, fun i hi => by
      have hi0 : i = 0 := Nat.lt_one_iff.mp hi
      subst hi0
      decide⟩).trans (by decide)

/-- C2 counterexample: with incremental caching enabled, the scaling
pass mutates the primary cache set (the claim says the primary set is
mutated only during the final pass), and the final pass mutates the
scaling-pass (X-LoRA) cache set (the claim says that set is mutated
only during the scaling pass). -/
theorem C2_cache_arena_ownership_cex :
    ¬ ((scalingPass 1 ⟨1, 1, [7]⟩ ⟨1, 2, [3, 7]⟩ [1] [0, 1] false
        ⟨[], [none], [none]⟩).map MState.cache = some [none])
    ∧ ¬ ((finalPass 1 ⟨1, 1, [7]⟩ ⟨1, 2, [3, 7]⟩ false
        ⟨[], [some (.kv 1 1)], [none]⟩).map MState.xcache = some [none]) := by
  decide

/-- C2 amended: the cache arena is selected by the `is_full_pass` flag
of `inner_forward`, not by pass role: a full pass never touches the
primary set and an incremental pass never touches the X-LoRA set.
Consequently, with incremental caching enabled the scaling pass
(incremental) leaves the X-LoRA set unchanged while mutating the
primary set, and the final pass (full) leaves the primary set
unchanged while mutating the X-LoRA set — the reverse of the claimed
ownership. -/
theorem C2_cache_arena_by_pass_kind :
    (∀ (n s : Nat) (nkc : Bool) (st st' : MState),
        inner_forward n s true nkc st = some st' → st'.cache = st.cache)
    ∧ (∀ (n s : Nat) (nkc : Bool) (st st' : MState),
        inner_forward n s false nkc st = some st' → st'.xcache = st.xcache)
    ∧ (∀ (nL : Nat) (ids idsFull : Ids) (offs offsFull : List Nat)
        (st st₁ : MState),
        scalingPass nL ids idsFull offs offsFull false st = some st₁ →
          st₁.xcache = st.xcache)
    ∧ (∀ (nL : Nat) (ids idsFull : Ids) (st st₂ : MState),
        finalPass nL ids idsFull false st = some st₂ → st₂.cache = st.cache) := by
  refine ⟨?_, ?_, ?_, ?_⟩
  · intro n s nkc st st' h
    exact inner_forward_full_frame n s nkc st st' h
  · intro n s nkc st st' h
    exact inner_forward_incr_frame n s nkc st st' h
  · intro nL ids idsFull offs offsFull st st₁ h
    exact inner_forward_incr_frame nL ids.seqLen false st st₁ h
  · intro nL ids idsFull st st₂ h
    exact inner_forward_full_frame nL ids.seqLen false st st₂ h

/-- Witness for C2 (amended): the concrete cached-mode scaling pass of
the counterexample leaves the X-LoRA arena untouched. -/
theorem C2_cache_arena_by_pass_kind_witness :
    (⟨[(1, buildMask 1)], [some (.kv 1 1)], [none]⟩ : MState).xcache =
      (⟨[], [none], [none]⟩ : MState).xcache :=
  C2_cache_arena_by_pass_kind.2.2.1 1 ⟨1, 1, [7]⟩ ⟨1, 2, [3, 7]⟩ [1] [0, 1]
    ⟨[], [none], [none]⟩ ⟨[(1, buildMask 1)], [some (.kv 1 1)], [none]⟩
    (by decide)

/-- C9 counterexample: a forward call on a model whose mask memo is
empty inserts a mask entry, so state other than the KV cache tensors
persists across generation steps. -/
theorem C9_only_kv_cache_persists_cex :
    ¬ ((forward 1 ⟨1, 1, [7]⟩ ⟨1, 1, [7]⟩ [0] [0] false
        ⟨[], [none], [none]⟩).map MState.masks = some []) := by decide

/-- C9 amended: across successive forward calls the only model state
that changes besides the two KV cache arenas is the causal-mask memo
table, and that table only grows: every entry present before the call
is still present, unchanged, afterwards, and well-formedness of the
memo is preserved. -/
theorem C9_state_persistence_masks_grow_only :
    ∀ (nL : Nat) (ids idsFull : Ids) (offs offsFull : List Nat) (nkc : Bool)
      (st st' : MState),
      forward nL ids idsFull offs offsFull nkc st = some st' →
      (∀ t m, maskLookup t st.masks = some m → maskLookup t st'.masks = some m)
      ∧ (MaskTableWF st.masks → MaskTableWF st'.masks) := by
  intro nL ids idsFull offs offsFull nkc st st' h
  unfold forward at h
  cases hs : scalingPass nL ids idsFull offs offsFull nkc st with
  | none => rw [hs] at h; cases h
  | some st₁ =>
    rw [hs] at h
    have hm₁ : st₁.masks =
        (maskOp (scalingPassArgs ids idsFull offs offsFull nkc).1.seqLen
          st.masks).2 :=
      inner_forward_masks nL _ _ nkc st st₁ hs
    have hm₂ : ∃ s₂ : Nat, st'.masks = (maskOp s₂ st₁.masks).2 := by
      cases nkc with
      | true =>
        refine ⟨idsFull.seqLen, ?_⟩
        unfold finalPass at h
        simp only [if_pos] at h
        exact inner_forward_masks nL idsFull.seqLen true true
          ⟨st₁.masks, List.replicate st₁.cache.length (some .placeholder),
            st₁.xcache⟩ st' h
      | false =>
        refine ⟨ids.seqLen, ?_⟩
        unfold finalPass at h
        simp only [Bool.false_eq_true, if_false] at h
        exact inner_forward_masks nL ids.seqLen true false _ st' h
    obtain ⟨s₂, hm₂⟩ := hm₂
    constructor
    · intro t m hlk
      rw [hm₂, hm₁]
      exact maskOp_preserves_lookup _ _ _ _
        (maskOp_preserves_lookup _ _ _ _ hlk)
    · intro hwf
      rw [hm₂, hm₁]
      exact maskOp_preserves_wf (maskOp_preserves_wf hwf _) _

/-- Witness for C9 (amended): a concrete forward call preserves the
pre-existing memo entry for length 2. -/
theorem C9_state_persistence_masks_grow_only_witness :
    maskLookup 2 ((⟨[(2, buildMask 2), (1, buildMask 1)],
        [some (.kv 1 1)], [some (.kv 1 1)]⟩ : MState)).masks =
      some (buildMask 2) :=
  (C9_state_persistence_masks_grow_only 1 ⟨1, 1, [7]⟩ ⟨1, 1, [7]⟩ [0] [0]
    false ⟨[(2, buildMask 2)], [none], [none]⟩
    ⟨[(2, buildMask 2), (1, buildMask 1)], [some (.kv 1 1)], [some (.kv 1 1)]⟩
    (by decide)).1 2 (buildMask 2) (by decide)

/-- C10: the uniform dummy scalings handed to the scaling pass are
built from `input_ids_full`'s batch size and `input_ids`'s sequence
length — even in no-cache mode, where the scaling pass itself
processes `input_ids_full`; there the scalings' sequence length
matches the processed tensor's only when `input_ids` and
`input_ids_full` have the same sequence length. -/
theorem C10_dummy_scalings_incremental_seqlen :
    ∀ (ids idsFull : Ids) (offs offsFull : List Nat) (nkc : Bool),
      (scalingPassArgs ids idsFull offs offsFull nkc).2.2.1 =
        ⟨idsFull.bSize, ids.seqLen⟩
      ∧ (scalingPassArgs ids idsFull offs offsFull true).1 = idsFull
      ∧ ((scalingPassArgs ids idsFull offs offsFull true).2.2.1.seqLen =
          (scalingPassArgs ids idsFull offs offsFull true).1.seqLen ↔
          ids.seqLen = idsFull.seqLen) := by
  intro ids idsFull offs offsFull nkc
  refine ⟨?_, rfl, Iff.rfl⟩
  cases nkc <;> rfl

end XLoraQuantizedLlama
